import Mathlib

/-!
# Verification of the prop-firm risk governance modules

Shallow embedding of three modules of the repository:

* `backtrader/analyzers/propfirm_drawdown.py` (`PropFirmDrawDown`)
* `backtrader/strategies/daily_loss_limit.py` (`DailyLossLimitMixin`)
* `backtrader/analyzers/consistency.py` (`ConsistencyAnalyzer`)

Money amounts are modelled as rationals (`Rat`), dates and datetimes as
integers.  Python's `float('-inf')` sentinel for the uninitialized
high-water mark is modelled as `Option Rat` with `none` standing for `-inf`.

Per backtrader's event loop, an analyzer receives `notify_fund` (and a
strategy `notify_cashvalue`) for a bar before `next` runs for that bar;
a bar step is therefore the composition of the two.
-/

/-- HWM update policy: `'intraday'` or `'eod'` (`trailing_mode` param). -/
inductive TrailingMode
  | intraday
  | eod
deriving DecidableEq, Repr

/-- One bar as seen by the analyzer: the strategy datetime (split as a date
and a full timestamp) and the broker's `value` / `fundvalue` for the bar. -/
structure Bar where
  date : Int
  dt : Int
  value : Rat
  fundvalue : Rat
deriving Repr

/-- The account value `notify_fund` stores, depending on fund mode. -/
def Bar.accountValue (fundmode : Bool) (b : Bar) : Rat :=
  if fundmode then b.fundvalue else b.value

/-- One entry of `rets.breaches` (dict with datetime/value/drawdown/hwm). -/
structure BreachRecord where
  dt : Int
  value : Rat
  drawdown : Rat
  hwm : Rat
deriving Repr, DecidableEq

/-- The analyzer's `rets` (`AutoOrderedDict`) as `create_analysis` shapes it. -/
structure PFDRets where
  hwm : Rat
  current_value : Rat
  current_drawdown : Rat
  max_drawdown : Rat
  breached : Bool
  breach_count : Nat
  breaches : List BreachRecord
  trailing_frozen : Bool
  frozen_hwm : Option Rat
deriving Repr

/-- The `params` tuple of `PropFirmDrawDown` (the `fund` param is carried
separately as the resolved fundmode boolean, see `PropFirmDrawDown.start`). -/
structure PFDParams where
  max_drawdown : Rat := 3000
  trailing_mode : TrailingMode := TrailingMode.intraday
  trail_stop_threshold : Option Rat := none
  starting_balance : Option Rat := none
deriving Repr

/-- Mutable state of the analyzer: the `self._*` fields plus `rets`.
`hwm = none` models `float('-inf')` (not yet initialized). -/
structure PFDState where
  fundmode : Bool
  current_value : Rat
  hwm : Option Rat
  trailing_frozen : Bool
  frozen_hwm : Option Rat
  starting_balance : Option Rat
  prev_date : Option Int
  trail_target : Option Rat
  rets : PFDRets
deriving Repr

/-- `create_analysis`: the initial `rets`. -/
def PropFirmDrawDown.create_analysis : PFDRets :=
  { hwm := 0
    current_value := 0
    current_drawdown := 0
    max_drawdown := 0
    breached := false
    breach_count := 0
    breaches := []
    trailing_frozen := false
    frozen_hwm := none }

/-- `start`: initializes the `self._*` fields.  `fund` is the resolved
fundmode (`self._fundmode`, autodetected from the broker when the param is
`None`).  `_trail_target` is set when both `starting_balance` and
`trail_stop_threshold` are configured. -/
def PropFirmDrawDown.start (fund : Bool) (p : PFDParams) : PFDState :=
  { fundmode := fund
    current_value := 0
    hwm := none
    trailing_frozen := false
    frozen_hwm := none
    starting_balance := p.starting_balance
    prev_date := none
    trail_target :=
      match p.starting_balance, p.trail_stop_threshold with
      | some sb, some th => some (sb + th)
      | _, _ => none
    rets := PropFirmDrawDown.create_analysis }

/-- `notify_fund`: stores the current value (fundvalue in fund mode),
auto-detects the starting balance on first call (recomputing the trail
target when the threshold is set) and initializes the HWM on first call. -/
def PropFirmDrawDown.notify_fund (p : PFDParams) (s : PFDState)
    (value fundvalue : Rat) : PFDState :=
  let cv := if s.fundmode then fundvalue else value
  let s1 := { s with current_value := cv }
  let s2 :=
    match s1.starting_balance with
    | none =>
        let s' := { s1 with starting_balance := some cv }
        match p.trail_stop_threshold with
        | some th => { s' with trail_target := some (cv + th) }
        | none => s'
    | some _ => s1
  match s2.hwm with
  | none => { s2 with hwm := some s2.current_value }
  | some _ => s2

/-- The first half of `_update_hwm`: `if self._current_value > self._hwm:
self._hwm = self._current_value` (`-inf` is exceeded by anything). -/
def PropFirmDrawDown.raiseHwm (s : PFDState) : PFDState :=
  match s.hwm with
  | none => { s with hwm := some s.current_value }
  | some h =>
      if h < s.current_value then { s with hwm := some s.current_value }
      else s

/-- `_update_hwm`: no-op once frozen; otherwise raises the HWM to the
current value when exceeded, then freezes at `trail_target` when the
current value has reached it. -/
def PropFirmDrawDown.update_hwm (s : PFDState) : PFDState :=
  if s.trailing_frozen then s
  else
    let s1 := PropFirmDrawDown.raiseHwm s
    match s1.trail_target with
    | some tt =>
        if tt ≤ s1.current_value ∧ s1.trailing_frozen = false then
          { s1 with trailing_frozen := true, hwm := some tt,
                    frozen_hwm := some tt }
        else s1
    | none => s1

/-- The HWM as a rational once initialized (`next` only reads it under the
guard that it is not `-inf`; `0` is a dead default for the `none` case). -/
def hwmVal : Option Rat → Rat
  | some h => h
  | none => 0

/-- The HWM-update block at the top of `next`: immediate in `'intraday'`
mode; in `'eod'` mode only on a date change from the previous bar, then the
previous date is recorded. -/
def PropFirmDrawDown.nextHwm (p : PFDParams) (s : PFDState) (b : Bar) :
    PFDState :=
  match p.trailing_mode with
  | TrailingMode.intraday => PropFirmDrawDown.update_hwm s
  | TrailingMode.eod =>
      let s' :=
        match s.prev_date with
        | some pd =>
            if b.date ≠ pd then PropFirmDrawDown.update_hwm s else s
        | none => s
      { s' with prev_date := some b.date }

/-- The breach block at the bottom of `next`: when the current drawdown
exceeds the limit and is a new worst (`not r.breached or
current_dd > r.breaches[-1]['drawdown']`), append a record and refresh the
count; either way set `breached`.  The source indexes `breaches[-1]` only
when `breached` is already true, in which state the list is never empty —
the `none` branch of `getLast?` is unreachable. -/
def PropFirmDrawDown.newWorst (breached : Bool) (breaches : List BreachRecord)
    (current_dd : Rat) : Bool :=
  !breached ||
    (match breaches.getLast? with
     | some la => decide (la.drawdown < current_dd)
     | none => false)

/-- The breach block itself: append when `newWorst`, refresh the count,
and set `breached` whenever the limit is exceeded. -/
def PropFirmDrawDown.breachCheck (md current_dd : Rat) (dt : Int)
    (value hwmv : Rat) (r1 : PFDRets) : PFDRets :=
  if md < current_dd then
    let r2a :=
      if PropFirmDrawDown.newWorst r1.breached r1.breaches current_dd
          = true then
        let rec0 : BreachRecord :=
          { dt := dt, value := value, drawdown := current_dd, hwm := hwmv }
        let brs := r1.breaches ++ [rec0]
        { r1 with breaches := brs, breach_count := brs.length }
      else r1
    { r2a with breached := true }
  else r1

/-- `next`: early return while uninitialized; the HWM update block; then
the drawdown figures are recomputed into `rets` and the breach check
runs. -/
def PropFirmDrawDown.next (p : PFDParams) (s : PFDState) (b : Bar) : PFDState :=
  match s.hwm with
  | none => s
  | some _ =>
    let s1 := PropFirmDrawDown.nextHwm p s b
    let current_dd := max 0 (hwmVal s1.hwm - s1.current_value)
    let r := s1.rets
    let r1 := { r with
      hwm := hwmVal s1.hwm
      current_value := s1.current_value
      current_drawdown := current_dd
      max_drawdown := max r.max_drawdown current_dd
      trailing_frozen := s1.trailing_frozen
      frozen_hwm := s1.frozen_hwm }
    { s1 with rets :=
        (PropFirmDrawDown.breachCheck p.max_drawdown current_dd b.dt
          s1.current_value (hwmVal s1.hwm) r1) }

/-- One bar as the event loop delivers it: `notify_fund` then `next`. -/
def PropFirmDrawDown.step (p : PFDParams) (s : PFDState) (b : Bar) : PFDState :=
  PropFirmDrawDown.next p (PropFirmDrawDown.notify_fund p s b.value b.fundvalue) b

/-- A whole run: `start`, then the bar steps in order. -/
def PropFirmDrawDown.run (fund : Bool) (p : PFDParams) (bars : List Bar) :
    PFDState :=
  bars.foldl (PropFirmDrawDown.step p) (PropFirmDrawDown.start fund p)

/-- `stop`: in `'eod'` mode a final HWM update for the last session and a
recalculation of the final drawdown figures. -/
def PropFirmDrawDown.stop (p : PFDParams) (s : PFDState) : PFDState :=
  if p.trailing_mode = TrailingMode.eod then
    let s1 := PropFirmDrawDown.update_hwm s
    match s1.hwm with
    | some h =>
        let dd := max 0 (h - s1.current_value)
        { s1 with rets := { s1.rets with
            current_drawdown := dd
            max_drawdown := max s1.rets.max_drawdown dd
            hwm := h } }
    | none => s1
  else s

/-!
## DailyLossLimitMixin (`backtrader/strategies/daily_loss_limit.py`)

The mixin intercepts `buy`/`sell` and, in `next`, runs its breach check
before the user strategy's logic (`super().next()` is called last).  Host
interaction (broker value, open orders, positions) is modelled as a per-bar
environment; corrective actions (`cancel`, `close`) are modelled as emitted
commands.
-/

/-- The params the mixin reads via `getattr` (defaults
`_DEFAULT_DAILY_LOSS_LIMIT = 1000.0`, `_DEFAULT_CANCEL_OPEN = True`). -/
structure DLLParams where
  daily_loss_limit : Rat := 1000
  cancel_open_on_breach : Bool := true
deriving Repr

/-- Mutable state of the mixin (`__init__` / `start`). -/
structure DLLState where
  day_start_value : Rat
  trading_blocked : Bool
  bypass_block : Bool
  prev_date : Option Int
deriving Repr, DecidableEq

/-- `start`: resets the state, taking the broker's value at start. -/
def DailyLossLimitMixin.start (broker_value : Rat) : DLLState :=
  { day_start_value := broker_value
    trading_blocked := false
    bypass_block := false
    prev_date := none }

/-- What the host broker exposes to the mixin on one bar: the bar date, the
broker value, the open orders and the per-data position sizes. -/
structure BrokerEnv where
  date : Int
  value : Rat
  open_orders : List Nat
  positions : List (Nat × Int)
deriving Repr

/-- A command the mixin issues back to the host. -/
inductive Command
  | cancel (orderId : Nat)
  | close (dataId : Nat)
deriving Repr, DecidableEq

/-- `notify_cashvalue`: called before `next` each bar; on a date change it
resets `day_start_value` to the current value and unblocks trading. -/
def DailyLossLimitMixin.notify_cashvalue (s : DLLState) (date : Int)
    (value : Rat) : DLLState :=
  let s1 :=
    match s.prev_date with
    | some pd =>
        if date ≠ pd then
          { s with day_start_value := value, trading_blocked := false }
        else s
    | none => s
  { s1 with prev_date := some date }

/-- `_cancel_all_open_orders`: a cancel command for every pending order. -/
def DailyLossLimitMixin.cancel_all_open_orders (env : BrokerEnv) :
    List Command :=
  env.open_orders.map Command.cancel

/-- `_flatten_all_positions`: sets the bypass, closes every nonzero
position, and clears the bypass again (`try/finally`). -/
def DailyLossLimitMixin.flatten_all_positions (s : DLLState)
    (env : BrokerEnv) : DLLState × List Command :=
  let s1 := { s with bypass_block := true }
  let cmds :=
    (env.positions.filter (fun pd => pd.2 ≠ 0)).map
      (fun pd => Command.close pd.1)
  ({ s1 with bypass_block := false }, cmds)

/-- `next` (the mixin's part, before `super().next()`): while not blocked,
compare the intraday loss against the limit; on breach, block, optionally
cancel open orders, and flatten positions. -/
def DailyLossLimitMixin.next (p : DLLParams) (s : DLLState)
    (env : BrokerEnv) : DLLState × List Command :=
  if s.trading_blocked = false then
    let daily_loss := s.day_start_value - env.value
    if p.daily_loss_limit ≤ daily_loss then
      let s1 := { s with trading_blocked := true }
      let cancelCmds :=
        if p.cancel_open_on_breach then
          DailyLossLimitMixin.cancel_all_open_orders env
        else []
      let flat := DailyLossLimitMixin.flatten_all_positions s1 env
      (flat.1, cancelCmds ++ flat.2)
    else (s, [])
  else (s, [])

/-- One bar for the mixin: `notify_cashvalue` (which backtrader delivers
before `next`), then the mixin's `next`. -/
def DailyLossLimitMixin.step (p : DLLParams) (s : DLLState)
    (env : BrokerEnv) : DLLState × List Command :=
  DailyLossLimitMixin.next p
    (DailyLossLimitMixin.notify_cashvalue s env.date env.value) env

/-- `buy`: intercepted to return `None` (and not call the underlying
submission) while blocked and not bypassed.  The result is the returned
order together with whether `super().buy()` was invoked; `host` stands for
the order the underlying submission would return. -/
def DailyLossLimitMixin.buy (s : DLLState) (host : Nat) :
    Option Nat × Bool :=
  if s.trading_blocked = true ∧ s.bypass_block = false then (none, false)
  else (some host, true)

/-- `sell`: same interception as `buy`. -/
def DailyLossLimitMixin.sell (s : DLLState) (host : Nat) :
    Option Nat × Bool :=
  if s.trading_blocked = true ∧ s.bypass_block = false then (none, false)
  else (some host, true)

/-!
## ConsistencyAnalyzer (`backtrader/analyzers/consistency.py`)

The daily P&L table is a Python dict keyed by date; insertion order is
preserved and an update in place keeps the key's position, which the
association list `upsert` mirrors.  `max(dict, key=...)` keeps the first
maximum in iteration order, which `bestDayOf`'s left fold mirrors.
-/

/-- A trade notification as `notify_trade` consumes it: whether the trade
`isclosed`, the bar date at notification, and `pnlcomm`. -/
structure Trade where
  isclosed : Bool
  date : Int
  pnlcomm : Rat
deriving Repr

/-- `self._daily_pnl[cur_date] = self._daily_pnl.get(cur_date, 0.0) + pnl`
on an insertion-ordered dict. -/
def upsert (tbl : List (Int × Rat)) (d : Int) (x : Rat) : List (Int × Rat) :=
  match tbl with
  | [] => [(d, x)]
  | (k, v) :: rest =>
      if k = d then (k, v + x) :: rest else (k, v) :: upsert rest d x

/-- `notify_trade`: ignores open trades, accumulates closed P&L by date. -/
def ConsistencyAnalyzer.notify_trade (tbl : List (Int × Rat)) (t : Trade) :
    List (Int × Rat) :=
  if t.isclosed = false then tbl else upsert tbl t.date t.pnlcomm

/-- A `{date, pnl, pct}` record (`best_day` and `violations` entries). -/
structure DayStat where
  date : Int
  pnl : Rat
  pct : Rat
deriving Repr, DecidableEq

/-- The analyzer's `rets` as `create_analysis` shapes it. -/
structure ConsRets where
  daily_pnl : List (Int × Rat)
  net_pnl : Rat
  total_profit : Rat
  total_loss : Rat
  consistent : Bool
  max_day_pct : Rat
  best_day : Option DayStat
  violations : List DayStat
deriving Repr

/-- `create_analysis`. -/
def ConsistencyAnalyzer.create_analysis (maxpct : Rat) : ConsRets :=
  { daily_pnl := []
    net_pnl := 0
    total_profit := 0
    total_loss := 0
    consistent := true
    max_day_pct := maxpct
    best_day := none
    violations := [] }

/-- Python's `max(dict, key=lambda d: dict[d])`: the first entry of maximal
value in iteration order (replacement only on a strictly greater value). -/
def bestDayOf (tbl : List (Int × Rat)) : Option (Int × Rat) :=
  match tbl with
  | [] => none
  | e :: rest =>
      some (rest.foldl (fun best kv => if best.2 < kv.2 then kv else best) e)

/-- `sum(self._daily_pnl.values())`. -/
def sumVals (tbl : List (Int × Rat)) : Rat := (tbl.map Prod.snd).sum

/-- `stop`: early return on an empty table; otherwise the aggregate P&L
figures, the best day (its pct guarded by `net_pnl > 0`), and — only when
`net_pnl > 0` — the violation scan over profitable days. -/
def ConsistencyAnalyzer.stop (maxpct : Rat) (tbl : List (Int × Rat)) :
    ConsRets :=
  let r0 := ConsistencyAnalyzer.create_analysis maxpct
  let r1 := { r0 with daily_pnl := tbl }
  if tbl = [] then r1
  else
    let net := sumVals tbl
    let tp := ((tbl.map Prod.snd).filter (fun v => decide (0 < v))).sum
    let tl := ((tbl.map Prod.snd).filter (fun v => decide (v < 0))).sum
    let r2 := { r1 with net_pnl := net, total_profit := tp, total_loss := tl }
    let r3 :=
      match bestDayOf tbl with
      | some bd =>
          let bpct := if 0 < net then 100 * bd.2 / net else 0
          { r2 with best_day := some { date := bd.1, pnl := bd.2, pct := bpct } }
      | none => r2
    if 0 < net then
      let viols :=
        (tbl.filter
            (fun kv => decide (0 < kv.2) && decide (maxpct < 100 * kv.2 / net))).map
          (fun kv => ({ date := kv.1, pnl := kv.2, pct := 100 * kv.2 / net } : DayStat))
      { r3 with violations := viols, consistent := decide (viols = []) }
    else
      { r3 with consistent := true }

/-- A whole run of the analyzer: accumulate the trades, then `stop`. -/
def ConsistencyAnalyzer.run (maxpct : Rat) (trades : List Trade) : ConsRets :=
  ConsistencyAnalyzer.stop maxpct
    (trades.foldl ConsistencyAnalyzer.notify_trade [])

/-- The denominator of every division `stop` actually evaluates, in
evaluation order: the `best_pct` conditional expression divides by
`net_pnl` only when `net_pnl > 0`, and the violation loop divides by
`net_pnl` once per day with positive P&L, only inside the `net_pnl > 0`
branch. -/
def ConsistencyAnalyzer.stopDenoms (tbl : List (Int × Rat)) : List Rat :=
  if tbl = [] then []
  else
    let net := sumVals tbl
    let bestDenoms := if 0 < net then [net] else []
    let violDenoms :=
      if 0 < net then
        (tbl.filter (fun kv => decide (0 < kv.2))).map (fun _ => net)
      else []
    bestDenoms ++ violDenoms

/-!
## Construction-time validation (error handling)

Neither `PropFirmDrawDown` (its `params` tuple and `start`) nor
`DailyLossLimitMixin` (`__init__`/`start`) contains any validation of its
configuration: no value of `max_drawdown` or `daily_loss_limit` raises.
Construction is modelled as `Except` to make the (absent) failure path of
the claimed fail-fast configuration check expressible.
-/

/-- The configuration-error outcome the spec's taxonomy names. -/
inductive ConfigError
  | configurationError
deriving Repr, DecidableEq

/-- Constructing the analyzer: the source performs no parameter validation
and always yields a started instance. -/
def PropFirmDrawDown.construct (fund : Bool) (p : PFDParams) :
    Except ConfigError PFDState :=
  Except.ok (PropFirmDrawDown.start fund p)

/-- Constructing the mixin: the source performs no parameter validation and
always yields a started instance. -/
def DailyLossLimitMixin.construct (_p : DLLParams) (broker_value : Rat) :
    Except ConfigError DLLState :=
  Except.ok (DailyLossLimitMixin.start broker_value)

/-- Whether an `Except`-returning construction succeeded. -/
def constructOk {ε α : Type _} : Except ε α → Bool
  | Except.ok _ => true
  | Except.error _ => false

/-- The frozen configuration: state and reported `rets` agree that trailing
is frozen with the HWM pinned to `T`. -/
def TrailFrozenAt (T : Rat) (s : PFDState) : Prop :=
  s.trailing_frozen = true ∧ s.hwm = some T ∧ s.frozen_hwm = some T ∧
  s.rets.trailing_frozen = true ∧ s.rets.hwm = T ∧ s.rets.frozen_hwm = some T

/-- Reachable-state facts of a monitor configured with starting balance
`sb` and trail target `T`: the configuration fields are pinned and, once
frozen, the HWM is pinned at `T`. -/
def TrailCfg (fund : Bool) (sb T : Rat) (s : PFDState) : Prop :=
  s.fundmode = fund ∧ s.starting_balance = some sb ∧
  s.trail_target = some T ∧
  (s.trailing_frozen = true → TrailFrozenAt T s)

/-- Reachable-state facts of the breach log: `breached` marks a non-empty
log, drawdowns strictly increase in append order, and every logged
drawdown exceeds the configured limit. -/
def BreachInv (md : Rat) (s : PFDState) : Prop :=
  (s.rets.breached = true ↔ s.rets.breaches ≠ []) ∧
  List.Chain' (fun a c => a.drawdown < c.drawdown) s.rets.breaches ∧
  (∀ br ∈ s.rets.breaches, md < br.drawdown)

/-- `PropFirmDrawDown` configured with a starting balance and a trail-stop
threshold (remaining params at their defaults, in particular intraday
trailing). -/
def trailProfitParams (md sb t : Rat) : PFDParams :=
  { max_drawdown := md
    trailing_mode := TrailingMode.intraday
    trail_stop_threshold := some t
    starting_balance := some sb }

/-- The accumulated P&L of date `d` in the daily table (`0` when the date
is absent, matching `dict.get(date, 0.0)`). -/
def lookupPnl : List (Int × Rat) → Int → Rat
  | [], _ => 0
  | (k, v) :: rest, d => if k = d then v else lookupPnl rest d

/-- The dates of the daily table are pairwise distinct (a dict keeps one
entry per key). -/
def NodupKeys (tbl : List (Int × Rat)) : Prop := (tbl.map Prod.fst).Nodup

/-!
## Shared helper lemmas
-/

theorem foldl_preserve {α β : Type _} (f : α → β → α) (P : α → Prop)
    (h : ∀ a b, P a → P (f a b)) :
    ∀ (l : List β) (a : α), P a → P (l.foldl f a) := by
  intro l
  induction l with
  | nil => exact fun a ha => ha
  | cons x xs ih => exact fun a ha => ih (f a x) (h a x ha)

/-!
## C3 — end-of-day HWM update and the one-bar buffer

The spec requires the end-of-day update to use the account value as of the
previous bar (the last bar of the closed session), and the source's own
comment says the update happens "using the value that was current at that
point"; but `notify_fund` has already overwritten `self._current_value`
with the new bar's value by the time `next` detects the date change, so the
update actually uses the first value of the *new* session.  Concretely:
day 1 closes at 100005, day 2 opens higher at 100010; the day-boundary
update sets the HWM to 100010, not 100005.
-/

/-- C3: evaluating the code at the failing input.  In `'eod'` mode, after
day-1 bars valued 100000 and 100005 and a day-2 opening bar valued 100010,
the HWM right after the day-boundary update is 100010 — the day-2 opening
value — whereas the claim (and the source's own comment) require the day-1
closing value 100005. -/
theorem PropFirmDrawDown.eod_update_uses_new_session_value :
    (PropFirmDrawDown.run false { trailing_mode := TrailingMode.eod }
      [ { date := 1, dt := 10, value := 100000, fundvalue := 100000 },
        { date := 1, dt := 11, value := 100005, fundvalue := 100005 },
        { date := 2, dt := 20, value := 100010, fundvalue := 100010 } ]).rets.hwm
      = 100010 ∧ (100010 : Rat) ≠ 100005 := by
  constructor
  · simp [PropFirmDrawDown.run, PropFirmDrawDown.step, PropFirmDrawDown.start,
      PropFirmDrawDown.notify_fund, PropFirmDrawDown.next,
      PropFirmDrawDown.nextHwm, PropFirmDrawDown.update_hwm,
      PropFirmDrawDown.raiseHwm, PropFirmDrawDown.breachCheck,
      PropFirmDrawDown.create_analysis, hwmVal]
    norm_num
  · norm_num

/-!
## C4 — no construction-time configuration validation
-/

/-- C4 counterexample: constructing the drawdown monitor with
`max_drawdown = -1` and the loss governor with `daily_loss_limit = 0`
succeeds — no configuration error is raised at construction time,
contrary to the claim's fail-fast requirement. -/
theorem construct_accepts_nonpositive_limits :
    constructOk (PropFirmDrawDown.construct false { max_drawdown := -1 }) = true ∧
    constructOk (DailyLossLimitMixin.construct { daily_loss_limit := 0 } 100000)
      = true := by
  exact ⟨rfl, rfl⟩

/-- C4 (amended): construction never validates its configuration — every
parameter assignment is accepted, including non-positive `max_drawdown`
and `daily_loss_limit <= 0`; no error path exists before bars are
processed. -/
theorem construct_never_fails (fund : Bool) (p : PFDParams) (q : DLLParams)
    (v : Rat) :
    constructOk (PropFirmDrawDown.construct fund p) = true ∧
    constructOk (DailyLossLimitMixin.construct q v) = true := by
  exact ⟨rfl, rfl⟩

/-!
## C5 — the daily-loss block intercepts orders and resets on date rollover
-/

/-- C5: while `_trading_blocked` is true and the internal bypass is off,
`buy()` and `sell()` return `None` without invoking the underlying
submission; and on a date change `notify_cashvalue` — which backtrader
delivers before `next()` — clears the block and sets `_day_start_value` to
the current value, so resumption is automatic. -/
theorem DailyLossLimitMixin.block_intercepts_and_day_rollover_resets
    (s : DLLState) (o : Nat) (d pd : Int) (v : Rat) :
    (s.trading_blocked = true → s.bypass_block = false →
      DailyLossLimitMixin.buy s o = (none, false) ∧
      DailyLossLimitMixin.sell s o = (none, false)) ∧
    (s.prev_date = some pd → d ≠ pd →
      (DailyLossLimitMixin.notify_cashvalue s d v).trading_blocked = false ∧
      (DailyLossLimitMixin.notify_cashvalue s d v).day_start_value = v) := by
  constructor
  · intro hb hby
    constructor
    · simp [DailyLossLimitMixin.buy, hb, hby]
    · simp [DailyLossLimitMixin.sell, hb, hby]
  · intro hp hd
    simp [DailyLossLimitMixin.notify_cashvalue, hp, hd]

/-!
## C9 — corrective commands fire only on the Active→Blocked transition
-/

/-- C9: while already blocked (and with no date rollover on this bar, so
the block survives `notify_cashvalue`), the bar step emits no command and
stays blocked — the breach branch is never re-entered; and whenever the
mixin's `next` emits any command at all, the state was unblocked before
and blocked after, i.e. commands fire only on the transition bar. -/
theorem DailyLossLimitMixin.commands_only_on_transition (p : DLLParams)
    (s : DLLState) (env : BrokerEnv) :
    (s.trading_blocked = true → s.prev_date = some env.date →
      (DailyLossLimitMixin.step p s env).2 = [] ∧
      (DailyLossLimitMixin.step p s env).1.trading_blocked = true) ∧
    ((DailyLossLimitMixin.next p s env).2 ≠ [] →
      s.trading_blocked = false ∧
      (DailyLossLimitMixin.next p s env).1.trading_blocked = true) := by
  constructor
  · intro hb hp
    have hnc : DailyLossLimitMixin.notify_cashvalue s env.date env.value =
        { s with prev_date := some env.date } := by
      simp [DailyLossLimitMixin.notify_cashvalue, hp]
    constructor
    · simp [DailyLossLimitMixin.step, hnc, DailyLossLimitMixin.next, hb]
    · simp [DailyLossLimitMixin.step, hnc, DailyLossLimitMixin.next, hb]
  · intro hne
    by_cases hb : s.trading_blocked = false
    · refine ⟨hb, ?_⟩
      by_cases hl : p.daily_loss_limit ≤ s.day_start_value - env.value
      · simp [DailyLossLimitMixin.next, hb, hl,
          DailyLossLimitMixin.flatten_all_positions]
      · exfalso
        apply hne
        simp [DailyLossLimitMixin.next, hb, hl]
    · exfalso
      apply hne
      simp [DailyLossLimitMixin.next,
        show s.trading_blocked = true by simpa using hb]

/-!
## Projection lemmas for the drawdown monitor's phases
-/

@[simp] theorem raiseHwm_fundmode (s : PFDState) :
    (PropFirmDrawDown.raiseHwm s).fundmode = s.fundmode := by
  obtain ⟨fm, cv, hwm, fz, fh, sb, pd, tt, r⟩ := s
  cases hwm <;> simp [PropFirmDrawDown.raiseHwm] <;> split <;> simp

@[simp] theorem raiseHwm_current_value (s : PFDState) :
    (PropFirmDrawDown.raiseHwm s).current_value = s.current_value := by
  obtain ⟨fm, cv, hwm, fz, fh, sb, pd, tt, r⟩ := s
  cases hwm <;> simp [PropFirmDrawDown.raiseHwm] <;> split <;> simp

@[simp] theorem raiseHwm_trailing_frozen (s : PFDState) :
    (PropFirmDrawDown.raiseHwm s).trailing_frozen = s.trailing_frozen := by
  obtain ⟨fm, cv, hwm, fz, fh, sb, pd, tt, r⟩ := s
  cases hwm <;> simp [PropFirmDrawDown.raiseHwm] <;> split <;> simp

@[simp] theorem raiseHwm_frozen_hwm (s : PFDState) :
    (PropFirmDrawDown.raiseHwm s).frozen_hwm = s.frozen_hwm := by
  obtain ⟨fm, cv, hwm, fz, fh, sb, pd, tt, r⟩ := s
  cases hwm <;> simp [PropFirmDrawDown.raiseHwm] <;> split <;> simp

@[simp] theorem raiseHwm_starting_balance (s : PFDState) :
    (PropFirmDrawDown.raiseHwm s).starting_balance = s.starting_balance := by
  obtain ⟨fm, cv, hwm, fz, fh, sb, pd, tt, r⟩ := s
  cases hwm <;> simp [PropFirmDrawDown.raiseHwm] <;> split <;> simp

@[simp] theorem raiseHwm_prev_date (s : PFDState) :
    (PropFirmDrawDown.raiseHwm s).prev_date = s.prev_date := by
  obtain ⟨fm, cv, hwm, fz, fh, sb, pd, tt, r⟩ := s
  cases hwm <;> simp [PropFirmDrawDown.raiseHwm] <;> split <;> simp

@[simp] theorem raiseHwm_trail_target (s : PFDState) :
    (PropFirmDrawDown.raiseHwm s).trail_target = s.trail_target := by
  obtain ⟨fm, cv, hwm, fz, fh, sb, pd, tt, r⟩ := s
  cases hwm <;> simp [PropFirmDrawDown.raiseHwm] <;> split <;> simp

@[simp] theorem raiseHwm_rets (s : PFDState) :
    (PropFirmDrawDown.raiseHwm s).rets = s.rets := by
  obtain ⟨fm, cv, hwm, fz, fh, sb, pd, tt, r⟩ := s
  cases hwm <;> simp [PropFirmDrawDown.raiseHwm] <;> split <;> simp

theorem raiseHwm_hwm_some (s : PFDState) (w : Rat) (hw : s.hwm = some w) :
    (PropFirmDrawDown.raiseHwm s).hwm = some w ∨
    (PropFirmDrawDown.raiseHwm s).hwm = some s.current_value := by
  obtain ⟨fm, cv, hwm, fz, fh, sb, pd, tt, r⟩ := s
  cases hwm <;> simp_all [PropFirmDrawDown.raiseHwm]
  split <;> simp

theorem update_hwm_frozen (s : PFDState) (h : s.trailing_frozen = true) :
    PropFirmDrawDown.update_hwm s = s := by
  simp [PropFirmDrawDown.update_hwm, h]

theorem update_hwm_nofreeze (s : PFDState) (T : Rat)
    (hf : s.trailing_frozen = false) (ht : s.trail_target = some T)
    (hcv : s.current_value < T) :
    PropFirmDrawDown.update_hwm s = PropFirmDrawDown.raiseHwm s := by
  unfold PropFirmDrawDown.update_hwm
  rw [if_neg (by simp [hf])]
  simp only [raiseHwm_trail_target, ht]
  rw [if_neg]
  intro hcon
  rw [raiseHwm_current_value] at hcon
  exact absurd hcon.1 (not_le.mpr hcv)

theorem update_hwm_freeze (s : PFDState) (T : Rat)
    (hf : s.trailing_frozen = false) (ht : s.trail_target = some T)
    (hcv : T ≤ s.current_value) :
    PropFirmDrawDown.update_hwm s =
      { PropFirmDrawDown.raiseHwm s with
          trailing_frozen := true, hwm := some T, frozen_hwm := some T } := by
  unfold PropFirmDrawDown.update_hwm
  rw [if_neg (by simp [hf])]
  simp only [raiseHwm_trail_target, ht]
  rw [if_pos]
  rw [raiseHwm_current_value, raiseHwm_trailing_frozen]
  exact ⟨hcv, hf⟩

theorem update_hwm_notarget (s : PFDState) (ht : s.trail_target = none) :
    PropFirmDrawDown.update_hwm s = PropFirmDrawDown.raiseHwm s ∨
    PropFirmDrawDown.update_hwm s = s := by
  by_cases hf : s.trailing_frozen = true
  · right; exact update_hwm_frozen s hf
  · left
    unfold PropFirmDrawDown.update_hwm
    rw [if_neg hf]
    simp only [raiseHwm_trail_target, ht]

@[simp] theorem notify_fund_rets (p : PFDParams) (s : PFDState) (v f : Rat) :
    (PropFirmDrawDown.notify_fund p s v f).rets = s.rets := by
  obtain ⟨fm, cv, hwm, fz, fh, sb, pd, tt, r⟩ := s
  obtain ⟨md, tm, tst, psb⟩ := p
  cases sb <;> cases hwm <;> cases tst <;>
    simp [PropFirmDrawDown.notify_fund]

@[simp] theorem notify_fund_trailing_frozen (p : PFDParams) (s : PFDState)
    (v f : Rat) :
    (PropFirmDrawDown.notify_fund p s v f).trailing_frozen
      = s.trailing_frozen := by
  obtain ⟨fm, cv, hwm, fz, fh, sb, pd, tt, r⟩ := s
  obtain ⟨md, tm, tst, psb⟩ := p
  cases sb <;> cases hwm <;> cases tst <;>
    simp [PropFirmDrawDown.notify_fund]

@[simp] theorem notify_fund_frozen_hwm (p : PFDParams) (s : PFDState)
    (v f : Rat) :
    (PropFirmDrawDown.notify_fund p s v f).frozen_hwm = s.frozen_hwm := by
  obtain ⟨fm, cv, hwm, fz, fh, sb, pd, tt, r⟩ := s
  obtain ⟨md, tm, tst, psb⟩ := p
  cases sb <;> cases hwm <;> cases tst <;>
    simp [PropFirmDrawDown.notify_fund]

@[simp] theorem notify_fund_fundmode (p : PFDParams) (s : PFDState)
    (v f : Rat) :
    (PropFirmDrawDown.notify_fund p s v f).fundmode = s.fundmode := by
  obtain ⟨fm, cv, hwm, fz, fh, sb, pd, tt, r⟩ := s
  obtain ⟨md, tm, tst, psb⟩ := p
  cases sb <;> cases hwm <;> cases tst <;>
    simp [PropFirmDrawDown.notify_fund]

@[simp] theorem notify_fund_prev_date (p : PFDParams) (s : PFDState)
    (v f : Rat) :
    (PropFirmDrawDown.notify_fund p s v f).prev_date = s.prev_date := by
  obtain ⟨fm, cv, hwm, fz, fh, sb, pd, tt, r⟩ := s
  obtain ⟨md, tm, tst, psb⟩ := p
  cases sb <;> cases hwm <;> cases tst <;>
    simp [PropFirmDrawDown.notify_fund]

@[simp] theorem notify_fund_current_value (p : PFDParams) (s : PFDState)
    (v f : Rat) :
    (PropFirmDrawDown.notify_fund p s v f).current_value
      = (if s.fundmode then f else v) := by
  obtain ⟨fm, cv, hwm, fz, fh, sb, pd, tt, r⟩ := s
  obtain ⟨md, tm, tst, psb⟩ := p
  cases sb <;> cases hwm <;> cases tst <;>
    simp [PropFirmDrawDown.notify_fund]

theorem notify_fund_hwm_isSome (p : PFDParams) (s : PFDState) (v f : Rat) :
    ∃ w, (PropFirmDrawDown.notify_fund p s v f).hwm = some w := by
  obtain ⟨fm, cv, hwm, fz, fh, sb, pd, tt, r⟩ := s
  obtain ⟨md, tm, tst, psb⟩ := p
  cases sb <;> cases hwm <;> cases tst <;>
    simp [PropFirmDrawDown.notify_fund]

theorem notify_fund_hwm_some (p : PFDParams) (s : PFDState) (v f : Rat)
    (w : Rat) (hw : s.hwm = some w) :
    (PropFirmDrawDown.notify_fund p s v f).hwm = some w := by
  obtain ⟨fm, cv, hwm, fz, fh, sb, pd, tt, r⟩ := s
  obtain ⟨md, tm, tst, psb⟩ := p
  cases sb <;> cases hwm <;> cases tst <;>
    simp_all [PropFirmDrawDown.notify_fund]

theorem notify_fund_sb_parts (p : PFDParams) (s : PFDState) (v f : Rat)
    (sb : Rat) (hsb : s.starting_balance = some sb) :
    (PropFirmDrawDown.notify_fund p s v f).starting_balance = some sb ∧
    (PropFirmDrawDown.notify_fund p s v f).trail_target = s.trail_target := by
  obtain ⟨fm, cv, hwm, fz, fh, sb', pd, tt, r⟩ := s
  cases hwm <;> simp_all [PropFirmDrawDown.notify_fund]

theorem nextHwm_cases (p : PFDParams) (s : PFDState) (b : Bar) :
    PropFirmDrawDown.nextHwm p s b = PropFirmDrawDown.update_hwm s ∨
    PropFirmDrawDown.nextHwm p s b =
      { PropFirmDrawDown.update_hwm s with prev_date := some b.date } ∨
    PropFirmDrawDown.nextHwm p s b = { s with prev_date := some b.date } := by
  unfold PropFirmDrawDown.nextHwm
  rcases p.trailing_mode with _ | _
  · left; rfl
  · rcases hpd : s.prev_date with _ | pd
    · right; right; rfl
    · by_cases hd : b.date ≠ pd
      · right; left; simp [hd]
      · right; right; simp [hd]

theorem nextHwm_intraday (p : PFDParams) (s : PFDState) (b : Bar)
    (h : p.trailing_mode = TrailingMode.intraday) :
    PropFirmDrawDown.nextHwm p s b = PropFirmDrawDown.update_hwm s := by
  unfold PropFirmDrawDown.nextHwm
  rw [h]

@[simp] theorem update_hwm_rets (s : PFDState) :
    (PropFirmDrawDown.update_hwm s).rets = s.rets := by
  unfold PropFirmDrawDown.update_hwm
  split
  · rfl
  · dsimp only
    split
    · split <;> simp
    · simp

@[simp] theorem update_hwm_fundmode (s : PFDState) :
    (PropFirmDrawDown.update_hwm s).fundmode = s.fundmode := by
  unfold PropFirmDrawDown.update_hwm
  split
  · rfl
  · dsimp only
    split
    · split <;> simp
    · simp

@[simp] theorem update_hwm_current_value (s : PFDState) :
    (PropFirmDrawDown.update_hwm s).current_value = s.current_value := by
  unfold PropFirmDrawDown.update_hwm
  split
  · rfl
  · dsimp only
    split
    · split <;> simp
    · simp

@[simp] theorem update_hwm_starting_balance (s : PFDState) :
    (PropFirmDrawDown.update_hwm s).starting_balance = s.starting_balance := by
  unfold PropFirmDrawDown.update_hwm
  split
  · rfl
  · dsimp only
    split
    · split <;> simp
    · simp

@[simp] theorem update_hwm_trail_target (s : PFDState) :
    (PropFirmDrawDown.update_hwm s).trail_target = s.trail_target := by
  unfold PropFirmDrawDown.update_hwm
  split
  · rfl
  · dsimp only
    split
    · split <;> simp
    · simp

@[simp] theorem update_hwm_prev_date (s : PFDState) :
    (PropFirmDrawDown.update_hwm s).prev_date = s.prev_date := by
  unfold PropFirmDrawDown.update_hwm
  split
  · rfl
  · dsimp only
    split
    · split <;> simp
    · simp

theorem breachCheck_not (md current_dd : Rat) (dt : Int) (v hv : Rat)
    (r1 : PFDRets) (h : ¬ md < current_dd) :
    PropFirmDrawDown.breachCheck md current_dd dt v hv r1 = r1 := by
  simp [PropFirmDrawDown.breachCheck, h]

theorem breachCheck_app (md current_dd : Rat) (dt : Int) (v hv : Rat)
    (r1 : PFDRets) (h : md < current_dd)
    (hc : PropFirmDrawDown.newWorst r1.breached r1.breaches current_dd
      = true) :
    PropFirmDrawDown.breachCheck md current_dd dt v hv r1 =
      { r1 with
          breaches := r1.breaches ++
            [{ dt := dt, value := v, drawdown := current_dd, hwm := hv }],
          breach_count := r1.breaches.length + 1,
          breached := true } := by
  simp [PropFirmDrawDown.breachCheck, h, hc]

theorem breachCheck_noapp (md current_dd : Rat) (dt : Int) (v hv : Rat)
    (r1 : PFDRets) (h : md < current_dd)
    (hc : PropFirmDrawDown.newWorst r1.breached r1.breaches current_dd
      = false) :
    PropFirmDrawDown.breachCheck md current_dd dt v hv r1 =
      { r1 with breached := true } := by
  simp [PropFirmDrawDown.breachCheck, h, hc]

@[simp] theorem breachCheck_hwm (md current_dd : Rat) (dt : Int) (v hv : Rat)
    (r1 : PFDRets) :
    (PropFirmDrawDown.breachCheck md current_dd dt v hv r1).hwm = r1.hwm := by
  unfold PropFirmDrawDown.breachCheck
  split
  · dsimp only
    split <;> simp
  · rfl

@[simp] theorem breachCheck_current_value (md current_dd : Rat) (dt : Int)
    (v hv : Rat) (r1 : PFDRets) :
    (PropFirmDrawDown.breachCheck md current_dd dt v hv r1).current_value
      = r1.current_value := by
  unfold PropFirmDrawDown.breachCheck
  split
  · dsimp only
    split <;> simp
  · rfl

@[simp] theorem breachCheck_current_drawdown (md current_dd : Rat) (dt : Int)
    (v hv : Rat) (r1 : PFDRets) :
    (PropFirmDrawDown.breachCheck md current_dd dt v hv r1).current_drawdown
      = r1.current_drawdown := by
  unfold PropFirmDrawDown.breachCheck
  split
  · dsimp only
    split <;> simp
  · rfl

@[simp] theorem breachCheck_max_drawdown (md current_dd : Rat) (dt : Int)
    (v hv : Rat) (r1 : PFDRets) :
    (PropFirmDrawDown.breachCheck md current_dd dt v hv r1).max_drawdown
      = r1.max_drawdown := by
  unfold PropFirmDrawDown.breachCheck
  split
  · dsimp only
    split <;> simp
  · rfl

@[simp] theorem breachCheck_trailing_frozen (md current_dd : Rat) (dt : Int)
    (v hv : Rat) (r1 : PFDRets) :
    (PropFirmDrawDown.breachCheck md current_dd dt v hv r1).trailing_frozen
      = r1.trailing_frozen := by
  unfold PropFirmDrawDown.breachCheck
  split
  · dsimp only
    split <;> simp
  · rfl

@[simp] theorem breachCheck_frozen_hwm (md current_dd : Rat) (dt : Int)
    (v hv : Rat) (r1 : PFDRets) :
    (PropFirmDrawDown.breachCheck md current_dd dt v hv r1).frozen_hwm
      = r1.frozen_hwm := by
  unfold PropFirmDrawDown.breachCheck
  split
  · dsimp only
    split <;> simp
  · rfl

/-- One bar step, written as its three phases: `notify_fund`, the HWM
block, then the `rets` refresh and breach block over the post-HWM state. -/
theorem step_shape (p : PFDParams) (s : PFDState) (b : Bar) :
    PropFirmDrawDown.step p s b =
      (fun s1 => { s1 with rets :=
        (PropFirmDrawDown.breachCheck p.max_drawdown
          (max 0 (hwmVal s1.hwm - s1.current_value)) b.dt s1.current_value
          (hwmVal s1.hwm)
          { s1.rets with
              hwm := hwmVal s1.hwm
              current_value := s1.current_value
              current_drawdown := max 0 (hwmVal s1.hwm - s1.current_value)
              max_drawdown := max s1.rets.max_drawdown
                (max 0 (hwmVal s1.hwm - s1.current_value))
              trailing_frozen := s1.trailing_frozen
              frozen_hwm := s1.frozen_hwm }) })
      (PropFirmDrawDown.nextHwm p
        (PropFirmDrawDown.notify_fund p s b.value b.fundvalue) b) := by
  obtain ⟨w, hw⟩ := notify_fund_hwm_isSome p s b.value b.fundvalue
  unfold PropFirmDrawDown.step PropFirmDrawDown.next
  simp only [hw]

@[simp] theorem nextHwm_rets (p : PFDParams) (s : PFDState) (b : Bar) :
    (PropFirmDrawDown.nextHwm p s b).rets = s.rets := by
  rcases nextHwm_cases p s b with h | h | h <;> rw [h] <;> simp

theorem step_rets_basic (p : PFDParams) (s : PFDState) (b : Bar) :
    (PropFirmDrawDown.step p s b).rets.current_drawdown =
      max 0 ((PropFirmDrawDown.step p s b).rets.hwm -
        (PropFirmDrawDown.step p s b).rets.current_value) ∧
    (PropFirmDrawDown.step p s b).rets.current_drawdown ≤
      (PropFirmDrawDown.step p s b).rets.max_drawdown ∧
    s.rets.max_drawdown ≤ (PropFirmDrawDown.step p s b).rets.max_drawdown := by
  rw [step_shape]
  simp only [nextHwm_rets, notify_fund_rets, breachCheck_hwm,
    breachCheck_current_value, breachCheck_current_drawdown,
    breachCheck_max_drawdown, true_and]
  exact ⟨le_max_right _ _, le_max_left _ _⟩

theorem run_append (fund : Bool) (p : PFDParams) (bars more : List Bar) :
    PropFirmDrawDown.run fund p (bars ++ more) =
      more.foldl (PropFirmDrawDown.step p) (PropFirmDrawDown.run fund p bars) := by
  simp [PropFirmDrawDown.run, List.foldl_append]

theorem foldl_max_drawdown_mono (p : PFDParams) (more : List Bar) :
    ∀ s : PFDState, s.rets.max_drawdown ≤
      (more.foldl (PropFirmDrawDown.step p) s).rets.max_drawdown := by
  induction more with
  | nil => exact fun s => le_refl _
  | cons b bs ih =>
      intro s
      exact le_trans (step_rets_basic p s b).2.2 (ih (PropFirmDrawDown.step p s b))

/-!
## C6 — drawdown arithmetic invariants
-/

/-- C6: at every bar (equivalently, after any run of bars), the reported
`current_drawdown` equals `max 0 (hwm - current_value)` and is bounded by
`max_drawdown`; and `max_drawdown` is monotonically non-decreasing across
any continuation of the bar sequence. -/
theorem PropFirmDrawDown.drawdown_figures_invariant (fund : Bool)
    (p : PFDParams) (bars more : List Bar) :
    (PropFirmDrawDown.run fund p bars).rets.current_drawdown =
      max 0 ((PropFirmDrawDown.run fund p bars).rets.hwm -
        (PropFirmDrawDown.run fund p bars).rets.current_value) ∧
    (PropFirmDrawDown.run fund p bars).rets.current_drawdown ≤
      (PropFirmDrawDown.run fund p bars).rets.max_drawdown ∧
    (PropFirmDrawDown.run fund p bars).rets.max_drawdown ≤
      (PropFirmDrawDown.run fund p (bars ++ more)).rets.max_drawdown := by
  refine ⟨?_, ?_, ?_⟩
  · rcases List.eq_nil_or_concat bars with hb | ⟨init, last, hb⟩
    · subst hb
      simp [PropFirmDrawDown.run, PropFirmDrawDown.start,
        PropFirmDrawDown.create_analysis]
    · subst hb
      rw [List.concat_eq_append, run_append]
      exact (step_rets_basic p _ last).1
  · rcases List.eq_nil_or_concat bars with hb | ⟨init, last, hb⟩
    · subst hb
      simp [PropFirmDrawDown.run, PropFirmDrawDown.start,
        PropFirmDrawDown.create_analysis]
    · subst hb
      rw [List.concat_eq_append, run_append]
      exact (step_rets_basic p _ last).2.1
  · rw [run_append]
    exact foldl_max_drawdown_mono p more _

@[simp] theorem nextHwm_fundmode (p : PFDParams) (s : PFDState) (b : Bar) :
    (PropFirmDrawDown.nextHwm p s b).fundmode = s.fundmode := by
  rcases nextHwm_cases p s b with h | h | h <;> rw [h] <;> simp

@[simp] theorem nextHwm_starting_balance (p : PFDParams) (s : PFDState)
    (b : Bar) :
    (PropFirmDrawDown.nextHwm p s b).starting_balance
      = s.starting_balance := by
  rcases nextHwm_cases p s b with h | h | h <;> rw [h] <;> simp

@[simp] theorem nextHwm_trail_target (p : PFDParams) (s : PFDState) (b : Bar) :
    (PropFirmDrawDown.nextHwm p s b).trail_target = s.trail_target := by
  rcases nextHwm_cases p s b with h | h | h <;> rw [h] <;> simp

@[simp] theorem nextHwm_current_value (p : PFDParams) (s : PFDState) (b : Bar) :
    (PropFirmDrawDown.nextHwm p s b).current_value = s.current_value := by
  rcases nextHwm_cases p s b with h | h | h <;> rw [h] <;> simp

theorem nextHwm_frozen (p : PFDParams) (s : PFDState) (b : Bar)
    (hf : s.trailing_frozen = true) :
    (PropFirmDrawDown.nextHwm p s b).trailing_frozen = true ∧
    (PropFirmDrawDown.nextHwm p s b).hwm = s.hwm ∧
    (PropFirmDrawDown.nextHwm p s b).frozen_hwm = s.frozen_hwm := by
  rcases nextHwm_cases p s b with h | h | h <;> rw [h] <;>
    simp [update_hwm_frozen s hf, hf]

theorem step_config (p : PFDParams) (s : PFDState) (b : Bar) :
    (PropFirmDrawDown.step p s b).fundmode = s.fundmode ∧
    ((PropFirmDrawDown.step p s b).starting_balance = s.starting_balance ∨
      s.starting_balance = none) ∧
    (s.starting_balance ≠ none →
      (PropFirmDrawDown.step p s b).trail_target = s.trail_target) := by
  rw [step_shape]
  dsimp only
  refine ⟨by simp, ?_, ?_⟩
  · rcases hsb : s.starting_balance with _ | sb
    · exact Or.inr rfl
    · left
      simp [(notify_fund_sb_parts p s b.value b.fundvalue sb hsb).1, hsb]
  · intro hne
    rcases hsb : s.starting_balance with _ | sb
    · exact absurd hsb hne
    · simp [(notify_fund_sb_parts p s b.value b.fundvalue sb hsb).2]

theorem step_frozen (p : PFDParams) (s : PFDState) (b : Bar) (T : Rat)
    (h : TrailFrozenAt T s) :
    TrailFrozenAt T (PropFirmDrawDown.step p s b) := by
  obtain ⟨hf, hh, hfh, _, _, _⟩ := h
  have h2f : (PropFirmDrawDown.notify_fund p s b.value b.fundvalue).trailing_frozen
      = true := by simp [hf]
  have h2h := notify_fund_hwm_some p s b.value b.fundvalue T hh
  have h2fh : (PropFirmDrawDown.notify_fund p s b.value b.fundvalue).frozen_hwm
      = some T := by simp [hfh]
  have h1 := nextHwm_frozen p _ b h2f
  rw [step_shape]
  dsimp only
  refine ⟨?_, ?_, ?_, ?_, ?_, ?_⟩ <;>
    simp [h1.1, h1.2.1, h1.2.2, h2h, h2fh, hf, hh, hfh, hwmVal]

theorem step_freezes (p : PFDParams) (s : PFDState) (b : Bar) (fund : Bool)
    (T : Rat) (hfm : s.fundmode = fund) (htt : s.trail_target = some T)
    (hsb : ∃ sb, s.starting_balance = some sb)
    (hnf : s.trailing_frozen = false)
    (hmode : p.trailing_mode = TrailingMode.intraday)
    (hv : T ≤ Bar.accountValue fund b) :
    TrailFrozenAt T (PropFirmDrawDown.step p s b) := by
  obtain ⟨sb, hsb⟩ := hsb
  have h2f : (PropFirmDrawDown.notify_fund p s b.value b.fundvalue).trailing_frozen
      = false := by simp [hnf]
  have h2tt : (PropFirmDrawDown.notify_fund p s b.value b.fundvalue).trail_target
      = some T := by
    rw [(notify_fund_sb_parts p s b.value b.fundvalue sb hsb).2, htt]
  have h2cv : (PropFirmDrawDown.notify_fund p s b.value b.fundvalue).current_value
      = Bar.accountValue fund b := by
    rw [notify_fund_current_value, hfm, Bar.accountValue]
  have h1 : PropFirmDrawDown.nextHwm p
      (PropFirmDrawDown.notify_fund p s b.value b.fundvalue) b =
      { PropFirmDrawDown.raiseHwm
          (PropFirmDrawDown.notify_fund p s b.value b.fundvalue) with
        trailing_frozen := true, hwm := some T, frozen_hwm := some T } := by
    rw [nextHwm_intraday p _ b hmode]
    exact update_hwm_freeze _ T h2f h2tt (by rw [h2cv]; exact hv)
  rw [step_shape]
  dsimp only
  rw [h1]
  refine ⟨rfl, rfl, rfl, ?_, ?_, ?_⟩ <;> simp [hwmVal]

theorem step_trailcfg (p : PFDParams) (fund : Bool) (sb T : Rat)
    (s : PFDState) (b : Bar)
    (hmode : p.trailing_mode = TrailingMode.intraday)
    (h : TrailCfg fund sb T s) :
    TrailCfg fund sb T (PropFirmDrawDown.step p s b) := by
  obtain ⟨hfm, hsb, htt, hfz⟩ := h
  have hcfg := step_config p s b
  have hfm' : (PropFirmDrawDown.step p s b).fundmode = fund := by
    rw [hcfg.1, hfm]
  have hsb' : (PropFirmDrawDown.step p s b).starting_balance = some sb := by
    rcases hcfg.2.1 with h' | h'
    · rw [h', hsb]
    · rw [hsb] at h'; exact absurd h' (by simp)
  have htt' : (PropFirmDrawDown.step p s b).trail_target = some T := by
    rw [hcfg.2.2 (by rw [hsb]; simp), htt]
  refine ⟨hfm', hsb', htt', ?_⟩
  by_cases hf : s.trailing_frozen = true
  · exact fun _ => step_frozen p s b T (hfz hf)
  · by_cases hv : T ≤ Bar.accountValue fund b
    · exact fun _ =>
        step_freezes p s b fund T hfm htt ⟨sb, hsb⟩
          (by simpa using hf) hmode hv
    · intro hfz'
      exfalso
      have h2f : (PropFirmDrawDown.notify_fund p s b.value b.fundvalue).trailing_frozen
          = false := by simp [(by simpa using hf : s.trailing_frozen = false)]
      have h2tt : (PropFirmDrawDown.notify_fund p s b.value b.fundvalue).trail_target
          = some T := by
        rw [(notify_fund_sb_parts p s b.value b.fundvalue sb hsb).2, htt]
      have h2cv : (PropFirmDrawDown.notify_fund p s b.value b.fundvalue).current_value
          = Bar.accountValue fund b := by
        rw [notify_fund_current_value, hfm, Bar.accountValue]
      have h1 : PropFirmDrawDown.nextHwm p
          (PropFirmDrawDown.notify_fund p s b.value b.fundvalue) b =
          PropFirmDrawDown.raiseHwm
            (PropFirmDrawDown.notify_fund p s b.value b.fundvalue) := by
        rw [nextHwm_intraday p _ b hmode]
        exact update_hwm_nofreeze _ T h2f h2tt
          (by rw [h2cv]; exact lt_of_not_le hv)
      rw [step_shape] at hfz'
      dsimp only at hfz'
      rw [h1] at hfz'
      rw [raiseHwm_trailing_frozen, h2f] at hfz'
      exact Bool.false_ne_true hfz'

theorem run_trailcfg (fund : Bool) (md sb t : Rat) (bars : List Bar) :
    TrailCfg fund sb (sb + t)
      (PropFirmDrawDown.run fund (trailProfitParams md sb t) bars) := by
  refine foldl_preserve _ _ (fun a b ha => step_trailcfg _ fund sb (sb + t) a b rfl ha)
    bars _ ?_
  refine ⟨rfl, rfl, rfl, ?_⟩
  intro h
  simp [PropFirmDrawDown.start] at h

/-!
## C1 — profit-target freeze is exact and irreversible
-/

/-- C1: with `starting_balance` and `trail_stop_threshold` configured (all
other params at their defaults, so intraday trailing), any bar whose
account value reaches `starting_balance + trail_stop_threshold` leaves the
monitor frozen, with both the internal and the reported HWM pinned exactly
at the trail target and `frozen_hwm` equal to it, and this persists
through every continuation of the bar sequence — freezing is
irreversible. -/
theorem PropFirmDrawDown.trail_freeze_exact_and_irreversible (fund : Bool)
    (md sb t : Rat) (pre post : List Bar) (b : Bar)
    (hv : sb + t ≤ Bar.accountValue fund b) :
    TrailFrozenAt (sb + t)
      (PropFirmDrawDown.run fund (trailProfitParams md sb t)
        (pre ++ b :: post)) := by
  have hcfg := run_trailcfg fund md sb t pre
  have hsplit : PropFirmDrawDown.run fund (trailProfitParams md sb t)
      (pre ++ b :: post) =
      post.foldl (PropFirmDrawDown.step (trailProfitParams md sb t))
        (PropFirmDrawDown.step (trailProfitParams md sb t)
          (PropFirmDrawDown.run fund (trailProfitParams md sb t) pre) b) := by
    simp [PropFirmDrawDown.run, List.foldl_append]
  rw [hsplit]
  have hb : TrailFrozenAt (sb + t)
      (PropFirmDrawDown.step (trailProfitParams md sb t)
        (PropFirmDrawDown.run fund (trailProfitParams md sb t) pre) b) := by
    by_cases hf : (PropFirmDrawDown.run fund (trailProfitParams md sb t)
        pre).trailing_frozen = true
    · exact step_frozen _ _ _ _ (hcfg.2.2.2 hf)
    · exact step_freezes _ _ _ fund _ hcfg.1 hcfg.2.2.1 ⟨sb, hcfg.2.1⟩
        (by simpa using hf) rfl hv
  exact foldl_preserve _ _ (fun a c ha => step_frozen _ a c _ ha) post _ hb

/-- C1 witness: starting balance 100000, threshold 1, a single bar valued
100001 freezes the monitor at 100001 exactly. -/
theorem PropFirmDrawDown.trail_freeze_witness :
    TrailFrozenAt (100000 + 1)
      (PropFirmDrawDown.run false (trailProfitParams 3000 100000 1)
        ([] ++ { date := 1, dt := 10, value := 100001, fundvalue := 100001 } :: [])) :=
  PropFirmDrawDown.trail_freeze_exact_and_irreversible false 3000 100000 1 [] []
    { date := 1, dt := 10, value := 100001, fundvalue := 100001 }
    (by norm_num [Bar.accountValue])

theorem newWorst_iff (breached : Bool) (brs : List BreachRecord) (dd : Rat)
    (hinv : breached = true ↔ brs ≠ []) :
    PropFirmDrawDown.newWorst breached brs dd = true ↔
      (brs = [] ∨ ∃ la, brs.getLast? = some la ∧ la.drawdown < dd) := by
  cases breached
  · have hbe : brs = [] := by
      by_contra hne
      exact Bool.false_ne_true (hinv.mpr hne)
    simp [PropFirmDrawDown.newWorst, hbe]
  · have hne : brs ≠ [] := hinv.mp rfl
    have hsome : brs.getLast?.isSome := by
      rw [List.getLast?_isSome]; exact hne
    obtain ⟨la, hla⟩ := Option.isSome_iff_exists.mp hsome
    simp only [PropFirmDrawDown.newWorst, hla, Bool.not_true,
      Bool.false_or, decide_eq_true_eq]
    constructor
    · exact fun h => Or.inr ⟨la, rfl, h⟩
    · rintro (h | ⟨la', hla', h⟩)
      · exact absurd h hne
      · injection hla' with hh
        rw [← hh] at h
        exact h

theorem append_singleton_ne (l : List BreachRecord) (x : BreachRecord) :
    l ++ [x] ≠ l := by
  intro h
  have := congrArg List.length h
  simp at this

theorem chain_append_singleton (l : List BreachRecord) (x : BreachRecord)
    (h1 : List.Chain' (fun a c => a.drawdown < c.drawdown) l)
    (h2 : ∀ la, l.getLast? = some la → la.drawdown < x.drawdown) :
    List.Chain' (fun a c => a.drawdown < c.drawdown) (l ++ [x]) := by
  rw [List.chain'_append]
  refine ⟨h1, List.chain'_singleton x, ?_⟩
  intro a ha y hy
  simp only [List.head?_cons, Option.mem_def, Option.some.injEq] at hy
  rw [← hy]
  exact h2 a ha

theorem step_breach_char (p : PFDParams) (s : PFDState) (b : Bar)
    (hinv : BreachInv p.max_drawdown s) :
    ((PropFirmDrawDown.step p s b).rets.breaches ≠ s.rets.breaches ↔
      (p.max_drawdown < (PropFirmDrawDown.step p s b).rets.current_drawdown ∧
        (s.rets.breaches = [] ∨
          ∃ la, s.rets.breaches.getLast? = some la ∧
            la.drawdown <
              (PropFirmDrawDown.step p s b).rets.current_drawdown))) ∧
    ((PropFirmDrawDown.step p s b).rets.breaches ≠ s.rets.breaches →
      ∃ br, (PropFirmDrawDown.step p s b).rets.breaches
          = s.rets.breaches ++ [br] ∧
        br.drawdown = (PropFirmDrawDown.step p s b).rets.current_drawdown) ∧
    BreachInv p.max_drawdown (PropFirmDrawDown.step p s b) := by
  obtain ⟨hiff, hchain, hmem⟩ := hinv
  rw [step_shape]
  dsimp only
  set s1 := PropFirmDrawDown.nextHwm p
    (PropFirmDrawDown.notify_fund p s b.value b.fundvalue) b with hs1
  have hrets : s1.rets = s.rets := by
    rw [hs1, nextHwm_rets, notify_fund_rets]
  rw [hrets]
  set dd := max 0 (hwmVal s1.hwm - s1.current_value) with hdd
  set R : PFDRets :=
    { s.rets with
        hwm := hwmVal s1.hwm
        current_value := s1.current_value
        current_drawdown := dd
        max_drawdown := max s.rets.max_drawdown dd
        trailing_frozen := s1.trailing_frozen
        frozen_hwm := s1.frozen_hwm } with hR
  have hRb : R.breached = s.rets.breached := by rw [hR]
  have hRbs : R.breaches = s.rets.breaches := by rw [hR]
  by_cases hlt : p.max_drawdown < dd
  · by_cases hw : PropFirmDrawDown.newWorst s.rets.breached s.rets.breaches dd
        = true
    · rw [breachCheck_app p.max_drawdown dd b.dt s1.current_value
        (hwmVal s1.hwm) R hlt (by rw [hRb, hRbs]; exact hw)]
      dsimp only [BreachInv]
      rw [hRbs]
      refine ⟨?_, ?_, ?_, ?_, ?_⟩
      · simp only [ne_eq, append_singleton_ne, not_false_eq_true, true_iff]
        exact ⟨hlt, (newWorst_iff _ _ _ hiff).mp hw⟩
      · intro _
        exact ⟨_, rfl, rfl⟩
      · simp
      · refine chain_append_singleton _ _ hchain ?_
        intro la hla
        rcases (newWorst_iff _ _ _ hiff).mp hw with hbe | ⟨la2, hla2, hlt2⟩
        · rw [hbe] at hla
          simp at hla
        · rw [hla] at hla2
          injection hla2 with hh
          rw [hh]
          exact hlt2
      · intro br hbr
        rcases List.mem_append.mp hbr with hold | hnew
        · exact hmem br hold
        · simp only [List.mem_singleton] at hnew
          rw [hnew]
          exact hlt
    · have hwf : PropFirmDrawDown.newWorst R.breached R.breaches dd
          = false := by
        rw [hRb, hRbs]
        exact Bool.eq_false_iff.mpr hw
      rw [breachCheck_noapp p.max_drawdown dd b.dt s1.current_value
        (hwmVal s1.hwm) R hlt hwf]
      dsimp only [BreachInv]
      rw [hRbs]
      have hbtrue : s.rets.breached = true := by
        cases hb : s.rets.breached
        · exfalso
          apply hw
          simp [PropFirmDrawDown.newWorst, hb]
        · rfl
      have hne : s.rets.breaches ≠ [] := hiff.mp hbtrue
      refine ⟨?_, ?_, ?_, hchain, hmem⟩
      · simp only [ne_eq, not_true_eq_false, false_iff, not_and]
        intro _ hcon
        exact hw ((newWorst_iff _ _ _ hiff).mpr hcon)
      · intro hcon
        exact absurd rfl hcon
      · simp [hne]
  · rw [breachCheck_not p.max_drawdown dd b.dt s1.current_value
      (hwmVal s1.hwm) R hlt]
    dsimp only [BreachInv]
    rw [hRbs, hRb]
    refine ⟨?_, ?_, hiff, hchain, hmem⟩
    · simp only [ne_eq, not_true_eq_false, false_iff, not_and]
      intro h
      exact absurd h hlt
    · intro hcon
      exact absurd rfl hcon

theorem run_breachinv (fund : Bool) (p : PFDParams) (bars : List Bar) :
    BreachInv p.max_drawdown (PropFirmDrawDown.run fund p bars) := by
  refine foldl_preserve _ _
    (fun a c ha => (step_breach_char p a c ha).2.2) bars _ ?_
  refine ⟨?_, ?_, ?_⟩ <;>
    simp [PropFirmDrawDown.start, PropFirmDrawDown.create_analysis]

/-!
## C2 — the breach log: append condition, monotonicity, bounds
-/

/-- C2: on any bar (the last of `bars ++ [b]`), a breach record is
appended iff that bar's `current_drawdown` exceeds `max_drawdown` and
either no breach was recorded before or it strictly exceeds the most
recent breach's drawdown; any change is exactly one appended record
carrying that drawdown; the logged drawdowns are strictly increasing in
append order and each exceeds `max_drawdown`; and `breached` is true
whenever the log is non-empty. -/
theorem PropFirmDrawDown.breach_log_characterization (fund : Bool)
    (p : PFDParams) (bars : List Bar) (b : Bar) :
    ((PropFirmDrawDown.run fund p (bars ++ [b])).rets.breaches ≠
        (PropFirmDrawDown.run fund p bars).rets.breaches ↔
      (p.max_drawdown <
          (PropFirmDrawDown.run fund p (bars ++ [b])).rets.current_drawdown ∧
        ((PropFirmDrawDown.run fund p bars).rets.breaches = [] ∨
          ∃ la, (PropFirmDrawDown.run fund p bars).rets.breaches.getLast?
              = some la ∧
            la.drawdown <
              (PropFirmDrawDown.run fund p
                (bars ++ [b])).rets.current_drawdown))) ∧
    ((PropFirmDrawDown.run fund p (bars ++ [b])).rets.breaches ≠
        (PropFirmDrawDown.run fund p bars).rets.breaches →
      ∃ br, (PropFirmDrawDown.run fund p (bars ++ [b])).rets.breaches
          = (PropFirmDrawDown.run fund p bars).rets.breaches ++ [br] ∧
        br.drawdown =
          (PropFirmDrawDown.run fund p (bars ++ [b])).rets.current_drawdown) ∧
    List.Chain' (fun a c => a.drawdown < c.drawdown)
      (PropFirmDrawDown.run fund p (bars ++ [b])).rets.breaches ∧
    (∀ br ∈ (PropFirmDrawDown.run fund p (bars ++ [b])).rets.breaches,
      p.max_drawdown < br.drawdown) ∧
    ((PropFirmDrawDown.run fund p (bars ++ [b])).rets.breaches ≠ [] →
      (PropFirmDrawDown.run fund p (bars ++ [b])).rets.breached = true) := by
  have hstep : PropFirmDrawDown.run fund p (bars ++ [b]) =
      PropFirmDrawDown.step p (PropFirmDrawDown.run fund p bars) b := by
    simp [PropFirmDrawDown.run, List.foldl_append]
  rw [hstep]
  have hchar := step_breach_char p (PropFirmDrawDown.run fund p bars) b
    (run_breachinv fund p bars)
  obtain ⟨h1, h2, hiff, hchain, hmem⟩ := hchar
  exact ⟨h1, h2, hchain, hmem, fun hne => hiff.mpr hne⟩

/-!
## C8 — no closed trades: the vacuous result
-/

theorem notify_trade_fold_open (trades : List Trade)
    (h : ∀ t ∈ trades, t.isclosed = false) :
    ∀ tbl, trades.foldl ConsistencyAnalyzer.notify_trade tbl = tbl := by
  induction trades with
  | nil => intro tbl; rfl
  | cons t ts ih =>
      intro tbl
      simp only [List.foldl_cons]
      rw [show ConsistencyAnalyzer.notify_trade tbl t = tbl by
        simp [ConsistencyAnalyzer.notify_trade, h t (List.mem_cons_self t ts)]]
      exact ih (fun u hu => h u (List.mem_cons_of_mem t hu)) tbl

/-- C8: if no trade closed during the run, the finalized result is the
vacuous outcome: empty daily table, `consistent`, no best day, no
violations, and zero aggregate figures. -/
theorem ConsistencyAnalyzer.no_closed_trades_vacuous (maxpct : Rat)
    (trades : List Trade) (h : ∀ t ∈ trades, t.isclosed = false) :
    (ConsistencyAnalyzer.run maxpct trades).daily_pnl = [] ∧
    (ConsistencyAnalyzer.run maxpct trades).consistent = true ∧
    (ConsistencyAnalyzer.run maxpct trades).best_day = none ∧
    (ConsistencyAnalyzer.run maxpct trades).violations = [] ∧
    (ConsistencyAnalyzer.run maxpct trades).net_pnl = 0 ∧
    (ConsistencyAnalyzer.run maxpct trades).total_profit = 0 ∧
    (ConsistencyAnalyzer.run maxpct trades).total_loss = 0 := by
  have hrun : ConsistencyAnalyzer.run maxpct trades =
      ConsistencyAnalyzer.stop maxpct [] := by
    unfold ConsistencyAnalyzer.run
    rw [notify_trade_fold_open trades h []]
  rw [hrun]
  simp [ConsistencyAnalyzer.stop, ConsistencyAnalyzer.create_analysis]

/-- C8 witness: the empty trade stream yields the vacuous result. -/
theorem ConsistencyAnalyzer.no_closed_trades_vacuous_witness :
    (ConsistencyAnalyzer.run 40 []).daily_pnl = [] ∧
    (ConsistencyAnalyzer.run 40 []).consistent = true ∧
    (ConsistencyAnalyzer.run 40 []).best_day = none ∧
    (ConsistencyAnalyzer.run 40 []).violations = [] ∧
    (ConsistencyAnalyzer.run 40 []).net_pnl = 0 ∧
    (ConsistencyAnalyzer.run 40 []).total_profit = 0 ∧
    (ConsistencyAnalyzer.run 40 []).total_loss = 0 :=
  ConsistencyAnalyzer.no_closed_trades_vacuous 40 [] (by simp)

theorem stop_nil_spec (maxpct : Rat) :
    ConsistencyAnalyzer.stop maxpct [] =
      ConsistencyAnalyzer.create_analysis maxpct := by
  simp [ConsistencyAnalyzer.stop, ConsistencyAnalyzer.create_analysis]

theorem stop_nonpos_spec (maxpct : Rat) (tbl : List (Int × Rat))
    (hne : tbl ≠ []) (hnp : ¬ 0 < sumVals tbl) :
    (ConsistencyAnalyzer.stop maxpct tbl).net_pnl = sumVals tbl ∧
    (ConsistencyAnalyzer.stop maxpct tbl).daily_pnl = tbl ∧
    (ConsistencyAnalyzer.stop maxpct tbl).violations = [] ∧
    (ConsistencyAnalyzer.stop maxpct tbl).consistent = true ∧
    (∀ bd, (ConsistencyAnalyzer.stop maxpct tbl).best_day = some bd →
      bd.pct = 0) := by
  unfold ConsistencyAnalyzer.stop
  rw [if_neg hne]
  dsimp only
  rw [if_neg hnp]
  rcases hbd : bestDayOf tbl with _ | bd
  · simp [hbd, ConsistencyAnalyzer.create_analysis]
  · simp [hbd, ConsistencyAnalyzer.create_analysis, hnp]

theorem stop_pos_spec (maxpct : Rat) (tbl : List (Int × Rat))
    (hne : tbl ≠ []) (hpos : 0 < sumVals tbl) :
    (ConsistencyAnalyzer.stop maxpct tbl).net_pnl = sumVals tbl ∧
    (ConsistencyAnalyzer.stop maxpct tbl).daily_pnl = tbl ∧
    (ConsistencyAnalyzer.stop maxpct tbl).violations =
      (tbl.filter (fun kv => decide (0 < kv.2) &&
        decide (maxpct < 100 * kv.2 / sumVals tbl))).map
        (fun kv =>
          ({ date := kv.1, pnl := kv.2, pct := 100 * kv.2 / sumVals tbl } : DayStat)) ∧
    (ConsistencyAnalyzer.stop maxpct tbl).consistent =
      decide ((tbl.filter (fun kv => decide (0 < kv.2) &&
        decide (maxpct < 100 * kv.2 / sumVals tbl))).map
        (fun kv =>
          ({ date := kv.1, pnl := kv.2, pct := 100 * kv.2 / sumVals tbl } : DayStat)) = []) := by
  unfold ConsistencyAnalyzer.stop
  rw [if_neg hne]
  dsimp only
  rw [if_pos hpos]
  rcases hbd : bestDayOf tbl with _ | bd
  · simp [hbd, ConsistencyAnalyzer.create_analysis]
  · simp [hbd, ConsistencyAnalyzer.create_analysis]

/-!
## C10 — every division in `stop` is guarded by `net_pnl > 0`
-/

/-- C10: over any trade stream, every denominator `stop` actually divides
by is positive (each is `net_pnl` under the `net_pnl > 0` guard), and when
`net_pnl <= 0` no division is evaluated at all: the denominator list is
empty, no violation pct is computed, and the best day's pct is the
literal `0`. -/
theorem ConsistencyAnalyzer.stop_divisions_guarded (maxpct : Rat)
    (trades : List Trade) :
    (∀ d ∈ ConsistencyAnalyzer.stopDenoms
        (trades.foldl ConsistencyAnalyzer.notify_trade []), 0 < d) ∧
    (sumVals (trades.foldl ConsistencyAnalyzer.notify_trade []) ≤ 0 →
      ConsistencyAnalyzer.stopDenoms
        (trades.foldl ConsistencyAnalyzer.notify_trade []) = [] ∧
      (ConsistencyAnalyzer.run maxpct trades).violations = [] ∧
      ∀ bd, (ConsistencyAnalyzer.run maxpct trades).best_day = some bd →
        bd.pct = 0) := by
  set tbl := trades.foldl ConsistencyAnalyzer.notify_trade [] with htbl
  constructor
  · intro d hd
    unfold ConsistencyAnalyzer.stopDenoms at hd
    by_cases hne : tbl = []
    · simp [hne] at hd
    · rw [if_neg hne] at hd
      dsimp only at hd
      by_cases hpos : 0 < sumVals tbl
      · rw [if_pos hpos, if_pos hpos] at hd
        rcases List.mem_append.mp hd with h1 | h1
        · simp only [List.mem_singleton] at h1
          rw [h1]; exact hpos
        · obtain ⟨kv, _, hkv⟩ := List.mem_map.mp h1
          rw [← hkv]; exact hpos
      · rw [if_neg hpos, if_neg hpos] at hd
        simp at hd
  · intro hle
    have hnp : ¬ 0 < sumVals tbl := not_lt.mpr hle
    have hdenoms : ConsistencyAnalyzer.stopDenoms tbl = [] := by
      unfold ConsistencyAnalyzer.stopDenoms
      by_cases hne : tbl = []
      · simp [hne]
      · rw [if_neg hne]
        dsimp only
        rw [if_neg hnp, if_neg hnp]
        rfl
    refine ⟨hdenoms, ?_, ?_⟩
    · by_cases hne : tbl = []
      · unfold ConsistencyAnalyzer.run
        rw [← htbl, hne, stop_nil_spec]
        rfl
      · unfold ConsistencyAnalyzer.run
        rw [← htbl]
        exact (stop_nonpos_spec maxpct tbl hne hnp).2.2.1
    · intro bd hbd
      by_cases hne : tbl = []
      · unfold ConsistencyAnalyzer.run at hbd
        rw [← htbl, hne, stop_nil_spec] at hbd
        exact absurd hbd (by simp [ConsistencyAnalyzer.create_analysis])
      · unfold ConsistencyAnalyzer.run at hbd
        rw [← htbl] at hbd
        exact (stop_nonpos_spec maxpct tbl hne hnp).2.2.2.2 bd hbd

/-!
## C7 — the violation rule at finalization
-/

theorem upsert_keys (tbl : List (Int × Rat)) (d : Int) (x : Rat) :
    ∀ k, k ∈ (upsert tbl d x).map Prod.fst ↔
      (k ∈ tbl.map Prod.fst ∨ k = d) := by
  induction tbl with
  | nil => intro k; simp [upsert]
  | cons kv rest ih =>
      intro k
      by_cases hk : kv.1 = d
      · rw [show upsert (kv :: rest) d x = (kv.1, kv.2 + x) :: rest by
          rw [← hk]; simp [upsert]]
        simp only [List.map_cons, List.mem_cons]
        constructor
        · rintro (h | h)
          · exact Or.inl (Or.inl h)
          · exact Or.inl (Or.inr h)
        · rintro ((h | h) | h)
          · exact Or.inl h
          · exact Or.inr h
          · rw [h, ← hk]; exact Or.inl rfl
      · rw [show upsert (kv :: rest) d x = (kv.1, kv.2) :: upsert rest d x by
          simp [upsert, hk]]
        simp only [List.map_cons, List.mem_cons, ih k]
        tauto

theorem upsert_nodup (tbl : List (Int × Rat)) (d : Int) (x : Rat)
    (h : NodupKeys tbl) : NodupKeys (upsert tbl d x) := by
  induction tbl with
  | nil => simp [upsert, NodupKeys]
  | cons kv rest ih =>
      unfold NodupKeys at h
      simp only [List.map_cons, List.nodup_cons] at h
      by_cases hk : kv.1 = d
      · rw [show upsert (kv :: rest) d x = (kv.1, kv.2 + x) :: rest by
          rw [← hk]; simp [upsert]]
        unfold NodupKeys
        simp only [List.map_cons, List.nodup_cons]
        exact h
      · rw [show upsert (kv :: rest) d x = (kv.1, kv.2) :: upsert rest d x by
          simp [upsert, hk]]
        unfold NodupKeys
        simp only [List.map_cons, List.nodup_cons]
        refine ⟨?_, ih h.2⟩
        intro hmem
        rcases (upsert_keys rest d x kv.1).mp hmem with h1 | h1
        · exact h.1 h1
        · exact hk h1

theorem fold_nodup (trades : List Trade) :
    NodupKeys (trades.foldl ConsistencyAnalyzer.notify_trade []) := by
  refine foldl_preserve _ _ ?_ trades [] (by simp [NodupKeys])
  intro tbl t h
  unfold ConsistencyAnalyzer.notify_trade
  by_cases hc : t.isclosed = false
  · rw [if_pos hc]; exact h
  · rw [if_neg hc]; exact upsert_nodup tbl t.date t.pnlcomm h

theorem lookup_mem (tbl : List (Int × Rat)) (d : Int)
    (h : lookupPnl tbl d ≠ 0) : (d, lookupPnl tbl d) ∈ tbl := by
  induction tbl with
  | nil => simp [lookupPnl] at h
  | cons kv rest ih =>
      by_cases hk : kv.1 = d
      · rw [show lookupPnl (kv :: rest) d = kv.2 by
          obtain ⟨k, v⟩ := kv
          simp only [lookupPnl]
          rw [if_pos hk]]
        have hkv : (d, kv.2) = kv := by
          obtain ⟨k, v⟩ := kv
          rw [← hk]
        rw [hkv]
        exact List.mem_cons_self _ _
      · have hlk : lookupPnl (kv :: rest) d = lookupPnl rest d := by
          obtain ⟨k, v⟩ := kv
          simp only [lookupPnl]
          rw [if_neg hk]
        rw [hlk] at h ⊢
        exact List.mem_cons_of_mem _ (ih h)

theorem mem_lookup (tbl : List (Int × Rat)) (d : Int) (v : Rat)
    (hnd : NodupKeys tbl) (h : (d, v) ∈ tbl) : lookupPnl tbl d = v := by
  induction tbl with
  | nil => simp at h
  | cons kv rest ih =>
      unfold NodupKeys at hnd
      simp only [List.map_cons, List.nodup_cons] at hnd
      rcases List.mem_cons.mp h with h1 | h1
      · rw [← h1]
        simp [lookupPnl]
      · have hk : kv.1 ≠ d := by
          intro hkd
          apply hnd.1
          rw [hkd]
          exact List.mem_map.mpr ⟨(d, v), h1, rfl⟩
        have hlk : lookupPnl (kv :: rest) d = lookupPnl rest d := by
          obtain ⟨k, w⟩ := kv
          simp only [lookupPnl]
          rw [if_neg hk]
        rw [hlk]
        exact ih hnd.2 h1

/-- C7: at finalization, if `net_pnl <= 0` the violation list is empty and
`consistent` holds regardless of `max_day_pct`; if `net_pnl > 0`, a date
appears among the violations exactly when its accumulated daily P&L is
positive and its share `100 * pnl / net_pnl` exceeds `max_day_pct`, and
`consistent` holds exactly when the violation list is empty. -/
theorem ConsistencyAnalyzer.violation_rule (maxpct : Rat)
    (trades : List Trade) :
    ((ConsistencyAnalyzer.run maxpct trades).net_pnl ≤ 0 →
      (ConsistencyAnalyzer.run maxpct trades).violations = [] ∧
      (ConsistencyAnalyzer.run maxpct trades).consistent = true) ∧
    (0 < (ConsistencyAnalyzer.run maxpct trades).net_pnl →
      (∀ d : Int,
        (∃ v ∈ (ConsistencyAnalyzer.run maxpct trades).violations,
          v.date = d) ↔
        (0 < lookupPnl (ConsistencyAnalyzer.run maxpct trades).daily_pnl d ∧
          maxpct < 100 *
            lookupPnl (ConsistencyAnalyzer.run maxpct trades).daily_pnl d /
            (ConsistencyAnalyzer.run maxpct trades).net_pnl)) ∧
      ((ConsistencyAnalyzer.run maxpct trades).consistent = true ↔
        (ConsistencyAnalyzer.run maxpct trades).violations = [])) := by
  set tbl := trades.foldl ConsistencyAnalyzer.notify_trade [] with htbl
  have hrun : ConsistencyAnalyzer.run maxpct trades =
      ConsistencyAnalyzer.stop maxpct tbl := rfl
  rw [hrun]
  by_cases hne : tbl = []
  · rw [hne, stop_nil_spec]
    constructor
    · intro _
      exact ⟨rfl, rfl⟩
    · intro hpos
      exact absurd hpos (by simp [ConsistencyAnalyzer.create_analysis])
  · by_cases hpos : 0 < sumVals tbl
    · obtain ⟨hnet, hdp, hviol, hcons⟩ := stop_pos_spec maxpct tbl hne hpos
      have hnd : NodupKeys tbl := by rw [htbl]; exact fold_nodup trades
      rw [hnet, hdp, hviol, hcons]
      constructor
      · intro hle
        exact absurd hpos (not_lt.mpr hle)
      · intro _
        constructor
        · intro d
          constructor
          · rintro ⟨v, hv, hvd⟩
            obtain ⟨kv, hkvf, hkvm⟩ := List.mem_map.mp hv
            obtain ⟨hkvt, hpred⟩ := List.mem_filter.mp hkvf
            rw [Bool.and_eq_true, decide_eq_true_eq, decide_eq_true_eq]
              at hpred
            have hkd : kv.1 = d := by rw [← hkvm] at hvd; exact hvd
            have hdv : (d, kv.2) ∈ tbl := by
              rw [show (d, kv.2) = kv by rw [← hkd]] at *
              exact hkvt
            have hlk : lookupPnl tbl d = kv.2 := mem_lookup tbl d kv.2 hnd hdv
            rw [hlk]
            exact hpred
          · rintro ⟨hp, hm⟩
            have hmem : (d, lookupPnl tbl d) ∈ tbl :=
              lookup_mem tbl d (ne_of_gt hp)
            refine ⟨({ date := d, pnl := lookupPnl tbl d, pct := 100 * lookupPnl tbl d / sumVals tbl } : DayStat), ?_, rfl⟩
            refine List.mem_map.mpr ⟨(d, lookupPnl tbl d), ?_, rfl⟩
            refine List.mem_filter.mpr ⟨hmem, ?_⟩
            rw [Bool.and_eq_true, decide_eq_true_eq, decide_eq_true_eq]
            exact ⟨hp, hm⟩
        · exact decide_eq_true_iff
    · obtain ⟨hnet, hdp, hviol, hcons, _⟩ :=
        stop_nonpos_spec maxpct tbl hne hpos
      rw [hnet, hviol, hcons]
      constructor
      · intro _
        exact ⟨rfl, rfl⟩
      · intro h
        exact absurd h hpos
